import Mathlib

/-!
InspIRCd timers, server bans and permanent channels.

A shallow embedding of three source files:

* `include/timer.h`: the `InspTimer` entity (constructor, getters,
  `CancelRepeat`) and the `TimerManager` that files timers in a map from
  trigger time to groups of timers;
* `src/modules/m_serverban.cpp`: `ModuleServerBan::OnCheckBan`;
* `src/modules/m_permchannels.cpp`: the list-mode part of `WriteDatabase`
  and the flush timer `ModulePermanentChannels::Tick`.

Conventions.  `time_t` and `long` are signed machine integers; signed
overflow is undefined behaviour in C++, so a sum is modelled by addition in
`Int`, which is what every defined execution computes.  A `std::string` is
a `List Char`.  A pointer `InspTimer*` is a natural number (an address) and
the objects pointed to live in a store `Nat → TimerObject`.
-/

namespace InspIRCd

/-! ## `include/timer.h`: the timer entity -/

/-- The three private members of `class InspTimer`.  The member called
`repeat` in the source is `repeat_` here because `repeat` is reserved. -/
structure InspTimer where
  trigger : Int
  secs : Int
  repeat_ : Bool
  deriving DecidableEq, Repr

namespace InspTimer

/-- `InspTimer(long secs_from_now, time_t now, bool repeating)`: the
constructor body, three assignments. -/
def init (secs_from_now : Int) (now : Int) (repeating : Bool) : InspTimer :=
  { trigger := now + secs_from_now
    secs := secs_from_now
    repeat_ := repeating }

/-- `InspTimer(secs_from_now, now)`: the constructor called without its
third argument, whose declared default is `repeating = false`. -/
def initDefault (secs_from_now : Int) (now : Int) : InspTimer :=
  init secs_from_now now false

/-- `GetTimer()`: the current triggering time. -/
def GetTimer (t : InspTimer) : Int := t.trigger

/-- `GetRepeat()`. -/
def GetRepeat (t : InspTimer) : Bool := t.repeat_

/-- `GetSecs()`. -/
def GetSecs (t : InspTimer) : Int := t.secs

/-- `CancelRepeat()`: `repeat = false;`. -/
def CancelRepeat (t : InspTimer) : InspTimer :=
  { t with repeat_ := false }

end InspTimer

/-- Modelled from the spec: the two error kinds of the spec's error
taxonomy.  Neither is declared anywhere in `timer.h`. -/
inductive TimerError where
  | InvalidArgument
  | AlreadyScheduled
  deriving DecidableEq, Repr

/-- The outcome of running the constructor of `InspTimer`.  Its body has
no `throw` and no test on its arguments, so it always completes with the
object built by `InspTimer.init`. -/
def InspTimer.construct (secs_from_now : Int) (now : Int) (repeating : Bool) :
    Except TimerError InspTimer :=
  Except.ok (InspTimer.init secs_from_now now repeating)

/-- Whether a construction outcome carries a timer. -/
def constructed : Except TimerError InspTimer → Bool
  | Except.ok _ => true
  | Except.error _ => false

/-! ## `include/timer.h`: the timer manager

`timer.h` declares `TimerManager` with its member `Timers` and the
signatures of `AddTimer`, `DelTimer` and `TickTimers`; their bodies are in
a file that is not part of the sources at hand, so the three operations are
modelled from the specification.  The specification lets the manager's
rescheduling step, and only it, write a timer's trigger; the model does so
by a record update, although `timer.h` declares no member function that
writes `trigger` after construction. -/

/-- Modelled from the spec: the timer as the manager meets it behind an
`InspTimer*`, that is the base-class members of `timer.h` together with the
action, which is "invoked with the current time, returns a boolean
indicating whether the timer should continue to repeat".  Missing from the
sources: every subclass overriding the pure virtual `Tick(time_t)`.  The
action has no access to the manager. -/
structure TimerObject where
  base : InspTimer
  action : Int → Bool

/-- `typedef std::vector<InspTimer*> timergroup`: addresses in insertion
order. -/
abbrev timergroup := List Nat

/-- `typedef std::map<time_t, timergroup*> timerlist`: the entries of the
map in iteration order, which for `std::map` is ascending key order. -/
abbrev timerlist := List (Int × timergroup)

/-- `class TimerManager`: its one data member. -/
structure TimerManager where
  Timers : timerlist
  deriving DecidableEq, Repr

/-- The store of timer objects together with the manager that points into
it. -/
structure State where
  heap : Nat → TimerObject
  manager : TimerManager

/-- A freshly constructed manager over a given store. -/
def State.empty (heap : Nat → TimerObject) : State :=
  { heap := heap, manager := { Timers := [] } }

/-- Assignment through a pointer: the store with the object at address `T`
replaced. -/
def store (heap : Nat → TimerObject) (T : Nat) (obj : TimerObject) : Nat → TimerObject :=
  fun x => if x = T then obj else heap x

/-- Modelled from the spec: "Files the timer into the bucket for its
trigger time, creating the bucket if absent"; within a bucket timers stay
in insertion order.  Missing from the sources: the filing step of
`TimerManager::AddTimer`. -/
def fileTimer (k : Int) (T : Nat) : timerlist → timerlist
  | [] => [(k, [T])]
  | (k', g) :: rest =>
      if k < k' then (k, [T]) :: (k', g) :: rest
      else if k = k' then (k', g ++ [T]) :: rest
      else (k', g) :: fileTimer k T rest

/-- Modelled from the spec: "Locates the timer's current bucket (by its
trigger value) and erases it from that bucket; prunes the bucket if it
becomes empty", a no-op when the timer is not there.  Missing from the
sources: the body of `TimerManager::DelTimer`. -/
def unfileTimer (k : Int) (T : Nat) : timerlist → timerlist
  | [] => []
  | (k', g) :: rest =>
      if k = k' then
        if (g.erase T).isEmpty then rest else (k', g.erase T) :: rest
      else (k', g) :: unfileTimer k T rest

/-- Whether the timer at address `T` is present in some bucket. -/
def scheduled (T : Nat) (l : timerlist) : Bool :=
  l.any (fun e => e.2.contains T)

/-- Modelled from the spec: `Add(timer, delaySecondsOverride=0)`.  It
"fails with `AlreadyScheduled` if the same timer instance is added while
still present" in a bucket (the "defensive check on double-Add of the same
instance"), leaving everything as it was; a nonzero
override recomputes the trigger as the manager's notion of now (`clock`)
plus the override; then the timer is filed under its trigger.  Missing
from the sources: the body of `TimerManager::AddTimer`. -/
def AddTimer (clock : Int) (T : Nat) (secs_from_now : Int) (s : State) :
    Except TimerError State :=
  if scheduled T s.manager.Timers then Except.error TimerError.AlreadyScheduled
  else
    let obj := s.heap T
    let obj1 : TimerObject :=
      if secs_from_now ≠ 0 then
        { obj with base := { obj.base with trigger := clock + secs_from_now } }
      else obj
    Except.ok
      { heap := store s.heap T obj1
        manager := { Timers := fileTimer obj1.base.GetTimer T s.manager.Timers } }

/-- Modelled from the spec: `Remove(timer)`.  Missing from the sources:
the body of `TimerManager::DelTimer`. -/
def DelTimer (T : Nat) (s : State) : State :=
  { heap := s.heap
    manager := { Timers := unfileTimer (s.heap T).base.GetTimer T s.manager.Timers } }

/-- Modelled from the spec: one firing.  The action is invoked with `now`;
when it returns `false` the repeat flag is cleared ("a timer can
self-cancel its own repetition from within its action"). -/
def fire (now : Int) (obj : TimerObject) : TimerObject :=
  if obj.action now then obj else { obj with base := obj.base.CancelRepeat }

/-- Modelled from the spec: steps 2 to 4 of `Tick` for one due timer that
has already left its bucket.  The action runs and the address is logged; a
timer that is repeating after its action gets the trigger "original
scheduled time plus the interval" and is re-filed through `AddTimer`;
otherwise it is discarded.  `AddTimer` refuses only a timer that is still in
a bucket, which a timer that has left its bucket is not; were it to refuse,
the timer would stay unfiled. -/
def tickOne (now : Int) (acc : State × List Nat) (T : Nat) : State × List Nat :=
  let s := acc.1
  let obj := fire now (s.heap T)
  if obj.base.GetRepeat then
    let obj2 : TimerObject :=
      { obj with base := { obj.base with trigger := obj.base.GetTimer + obj.base.GetSecs } }
    let s2 : State := { heap := store s.heap T obj2, manager := s.manager }
    match AddTimer now T 0 s2 with
    | Except.ok s3 => (s3, acc.2 ++ [T])
    | Except.error _ => (s2, acc.2 ++ [T])
  else
    ({ heap := store s.heap T obj, manager := s.manager }, acc.2 ++ [T])

/-- The timers of a run of buckets, bucket by bucket and in insertion
order within each bucket. -/
def timersOf : timerlist → List Nat
  | [] => []
  | e :: rest => e.2 ++ timersOf rest

/-- Modelled from the spec: `Tick(now)`.  The buckets are scanned in
ascending key order up to the first whose key exceeds `now`; the due
buckets leave the map, their timers fire in order, and a re-filed timer
"becomes visible to future `Tick` calls only, never the current pass".
The second component is the log of the addresses whose action was invoked,
in order.  Missing from the sources: the body of
`TimerManager::TickTimers`. -/
def TickTimers (TIME : Int) (s : State) : State × List Nat :=
  let due := s.manager.Timers.takeWhile (fun e => decide (e.1 ≤ TIME))
  let later := s.manager.Timers.dropWhile (fun e => decide (e.1 ≤ TIME))
  (timersOf due).foldl (tickOne TIME)
    ({ heap := s.heap, manager := { Timers := later } }, [])

/-- A call made on the manager by the host loop or a consumer. -/
inductive Call where
  | AddTimer (clock : Int) (T : Nat) (secs_from_now : Int)
  | DelTimer (T : Nat)
  | TickTimers (TIME : Int)
  deriving DecidableEq, Repr

/-- The effect of one call: the next state and the addresses fired by it.
A refused `AddTimer` changes nothing. -/
def Call.run (c : Call) (s : State) : State × List Nat :=
  match c with
  | Call.AddTimer clock T secs_from_now =>
      match InspIRCd.AddTimer clock T secs_from_now s with
      | Except.ok s1 => (s1, [])
      | Except.error _ => (s, [])
  | Call.DelTimer T => (InspIRCd.DelTimer T s, [])
  | Call.TickTimers TIME => InspIRCd.TickTimers TIME s

/-- A sequence of calls, from left to right, with the concatenated log of
fired addresses. -/
def runCalls : List Call → State → State × List Nat
  | [], s => (s, [])
  | c :: rest, s =>
      let r := c.run s
      let r2 := runCalls rest r.1
      (r2.1, r.2 ++ r2.2)

/-- A call that leaves the timer at address `T` alone: neither an add nor
a removal of `T`. -/
def Call.avoids (T : Nat) : Call → Bool
  | Call.AddTimer _ T1 _ => decide (T1 ≠ T)
  | Call.DelTimer T1 => decide (T1 ≠ T)
  | Call.TickTimers _ => true

/-- A call that is not a tick at or after the time `due`. -/
def Call.before (due : Int) : Call → Bool
  | Call.TickTimers TIME => decide (TIME < due)
  | _ => true

/-- The buckets of the map that hold the timer at address `T`. -/
def groupsOf (T : Nat) (l : timerlist) : timerlist :=
  l.filter (fun e => e.2.contains T)

/-- Well-formedness of a manager over its store: keys strictly ascending
(a `std::map` has one entry per key), no address twice in a bucket, and
every bucket keyed by the trigger of each timer in it. -/
def WF (s : State) : Prop :=
  List.Pairwise (fun a b => a < b) (s.manager.Timers.map Prod.fst) ∧
  ∀ e ∈ s.manager.Timers, e.2.Nodup ∧ ∀ T ∈ e.2, (s.heap T).base.GetTimer = e.1

/-! ## `src/modules/m_serverban.cpp` -/

/-- The values of `ModResult`. -/
inductive ModResult where
  | MOD_RES_ALLOW
  | MOD_RES_PASSTHRU
  | MOD_RES_DENY
  deriving DecidableEq, Repr

/-- `ModuleServerBan::OnCheckBan(user, c, mask)`.  `Match` stands for
`InspIRCd::Match`, `serverName` for `user->server->GetName()`; the channel
is not read.  `mask[0]` and `mask[1]` are only read after the length test,
so the default of `getD` is never used. -/
def OnCheckBan (Match : List Char → List Char → Bool) (serverName : List Char)
    (mask : List Char) : ModResult :=
  if decide (mask.length > 2) && (mask.getD 0 ' ' == 's') && (mask.getD 1 ' ' == ':') then
    if Match serverName (mask.drop 2) then ModResult.MOD_RES_DENY
    else ModResult.MOD_RES_PASSTHRU
  else ModResult.MOD_RES_PASSTHRU

/-! ## `src/modules/m_permchannels.cpp` -/

/-- An entry of a `ListModeBase::ModeList`; `WriteDatabase` reads only its
`mask`. -/
structure ListItem where
  mask : List Char
  deriving DecidableEq, Repr

/-- A list mode as `WriteDatabase` sees it for one channel: `GetModeChar()`
and `GetList(chan)`, which is a null pointer (`none`) or a list. -/
structure ListModeBase where
  modeChar : Char
  list : Option (List ListItem)
  deriving DecidableEq, Repr

/-- The inner loop over one mode list (`for k = list->begin() ...; ++k, n++`):
appends each mask and a space to `params` and counts the entries in `n`. -/
def appendParams : List ListItem → List Char × Nat → List Char × Nat
  | [], acc => acc
  | k :: rest, (params, n) => appendParams rest (params ++ k.mask ++ [' '], n + 1)

/-- The loop over `listmodes`, carrying the two locals `modes` and
`params`.  A null or empty list is skipped by `continue`. -/
def collectListModes : List ListModeBase → List Char × List Char → List Char × List Char
  | [], acc => acc
  | lm :: rest, (modes, params) =>
      match lm.list with
      | none => collectListModes rest (modes, params)
      | some list =>
          if list.isEmpty then collectListModes rest (modes, params)
          else
            let r := appendParams list (params, 0)
            collectListModes rest (modes ++ List.replicate r.2 lm.modeChar, r.1)

/-- `std::string::find(' ')`: the index of the first space, `none` for
`npos`. -/
def findSpace : List Char → Option Nat
  | [] => none
  | c :: rest => if c == ' ' then some 0 else (findSpace rest).map Nat.succ

/-- `std::string::insert(p, modes)`. -/
def stringInsert (s : List Char) (p : Nat) (modes : List Char) : List Char :=
  s.take p ++ modes ++ s.drop p

/-- The part of `WriteDatabase` that computes the `modes="..."` value of
one channel: `chanmodes` is `chan->ChanModes(true)`, `listmodes` is
`ServerInstance->Modes.GetListModes()` with each mode's list for the
channel. -/
def storedModes (save_listmodes : Bool) (chanmodes : List Char)
    (listmodes : List ListModeBase) : List Char :=
  if save_listmodes then
    let r := collectListModes listmodes ([], [])
    let modes := r.1
    let params := r.2
    if !params.isEmpty then
      let params := params.dropLast
      let chanmodes :=
        match findSpace chanmodes with
        | none => chanmodes ++ modes
        | some p => stringInsert chanmodes p modes
      chanmodes ++ [' '] ++ params
    else chanmodes
  else chanmodes

/-- The members of `ModulePermanentChannels` that `Tick`, `OnRawMode` and
`OnPostTopicChange` touch, and `writes`, the number of calls of
`WriteDatabase` made so far. -/
structure ModulePermanentChannels where
  dirty : Bool
  loaded : Bool
  save_listmodes : Bool
  writes : Nat
  deriving DecidableEq, Repr

namespace ModulePermanentChannels

/-- `Tick(time_t)`: writes the database when `dirty`, clears `dirty`,
returns `true`.  The result of `WriteDatabase` is dropped by the source. -/
def Tick (m : ModulePermanentChannels) (_time : Int) : Bool × ModulePermanentChannels :=
  let m1 := if m.dirty then { m with writes := m.writes + 1 } else m
  (true, { m1 with dirty := false })

/-- `OnRawMode(user, chan, mh, param, adding)`: `chanNonNull` is `chan`,
`permSet` is `chan->IsModeSet(p)`, `mhIsP` is `mh == &p`. -/
def OnRawMode (m : ModulePermanentChannels) (chanNonNull permSet mhIsP : Bool) :
    ModResult × ModulePermanentChannels :=
  (ModResult.MOD_RES_PASSTHRU,
    if chanNonNull && (permSet || mhIsP) then { m with dirty := true } else m)

/-- `OnPostTopicChange(user, c, topic)`: `permSet` is `c->IsModeSet(p)`. -/
def OnPostTopicChange (m : ModulePermanentChannels) (permSet : Bool) :
    ModulePermanentChannels :=
  if permSet then { m with dirty := true } else m

end ModulePermanentChannels

/-- The pairs (mode letter, mask) of all list modes, list by list and in
list order; a null list contributes nothing. -/
def maskPairs (listmodes : List ListModeBase) : List (Char × List Char) :=
  listmodes.flatMap (fun lm =>
    match lm.list with
    | none => []
    | some list => list.map (fun k => (lm.modeChar, k.mask)))

/-- The mode string described in words: `chanmodes` with the letters of
the pairs placed immediately before its first space (at the end when it has
none), then one space, then the masks joined by single spaces. -/
def describedModes (chanmodes : List Char) (pairs : List (Char × List Char)) : List Char :=
  chanmodes.takeWhile (fun c => c != ' ') ++ pairs.map Prod.fst ++
    chanmodes.dropWhile (fun c => c != ' ') ++ [' '] ++
    List.intercalate [' '] (pairs.map Prod.snd)

/-- A holder of the pointer `T` calling `T->CancelRepeat()`: the object
changes, the manager is not involved. -/
def cancelRepeatAt (T : Nat) (s : State) : State :=
  { heap := store s.heap T { s.heap T with base := (s.heap T).base.CancelRepeat }
    manager := s.manager }

/-- The timer at address `T` is in the bucket of `l` whose key is `k`. -/
def filedUnder (l : timerlist) (k : Int) (T : Nat) : Prop :=
  ∃ g, (k, g) ∈ l ∧ T ∈ g

/-- The object a due timer is left as by `tickOne`: fired, and when still
repeating, moved to its next trigger. -/
def afterTick (now : Int) (obj : TimerObject) : TimerObject :=
  if (fire now obj).base.GetRepeat then
    { fire now obj with
      base := { (fire now obj).base with
                trigger := (fire now obj).base.GetTimer + (fire now obj).base.GetSecs } }
  else fire now obj

/-- The state reached from an empty manager over the store `heap` by a
sequence of calls. -/
def reach (heap : Nat → TimerObject) (calls : List Call) : State :=
  (runCalls calls (State.empty heap)).1

/-- The store of the specification's scenario: at address `0` timer A,
constructed at time `100` with delay `5`, firing once; at every other
address a timer like B, constructed at time `100` with delay `5`,
repeating.  Both actions ask to continue. -/
def scenarioHeap : Nat → TimerObject := fun T =>
  if T = 0 then { base := InspTimer.init 5 100 false, action := fun _ => true }
  else { base := InspTimer.init 5 100 true, action := fun _ => true }

/-! ## Theorems: the timer entity -/

/-- C1: for every delay, time and repeating flag the constructed timer has
`GetTimer()` equal to `now + secs_from_now`; with a delay of zero the
trigger is `now`. -/
theorem C1_constructor_sets_trigger (secs_from_now now : Int) (repeating : Bool) :
    (InspTimer.init secs_from_now now repeating).GetTimer = now + secs_from_now ∧
    (InspTimer.init 0 now repeating).GetTimer = now := by
  simp [InspTimer.init, InspTimer.GetTimer]

/-- C2, as stated, fails: with delay `-1` at time `100` the constructor
completes with a timer whose trigger is `99`; it does not fail with
`InvalidArgument`, so success is not equivalent to a delay of at least
zero. -/
theorem C2_negative_delay_is_accepted :
    InspTimer.construct (-1) 100 false
      = Except.ok { trigger := 99, secs := -1, repeat_ := false } ∧
    InspTimer.construct (-1) 100 false ≠ Except.error TimerError.InvalidArgument ∧
    ¬ (constructed (InspTimer.construct (-1) 100 false) = true ↔ (0 : Int) ≤ -1) := by
  refine ⟨rfl, ?_, ?_⟩
  · intro h
    simp [InspTimer.construct] at h
  · simp [InspTimer.construct, constructed]

/-- C2, amended: for every delay, negative ones included, and every time
the constructor succeeds, and the timer it yields is the one with trigger
`now + secs_from_now`, interval `secs_from_now` and the flag passed; no
input makes it fail. -/
theorem C2_constructor_always_succeeds (secs_from_now now : Int) (repeating : Bool) :
    InspTimer.construct secs_from_now now repeating
      = Except.ok { trigger := now + secs_from_now, secs := secs_from_now,
                    repeat_ := repeating } ∧
    constructed (InspTimer.construct secs_from_now now repeating) = true ∧
    ∀ e : TimerError, InspTimer.construct secs_from_now now repeating ≠ Except.error e := by
  refine ⟨rfl, rfl, ?_⟩
  intro e h
  simp [InspTimer.construct] at h

/-- C3: `CancelRepeat()` leaves `GetRepeat()` false, keeps `GetTimer()` and
`GetSecs()`, and is idempotent; called through a pointer on a timer held by
a manager it leaves the map `Timers` as it was, so the timer stays
scheduled exactly where it was. -/
theorem C3_CancelRepeat (t : InspTimer) (T : Nat) (s : State) :
    t.CancelRepeat.GetRepeat = false ∧
    t.CancelRepeat.GetTimer = t.GetTimer ∧
    t.CancelRepeat.GetSecs = t.GetSecs ∧
    t.CancelRepeat.CancelRepeat = t.CancelRepeat ∧
    (cancelRepeatAt T s).manager.Timers = s.manager.Timers ∧
    ((cancelRepeatAt T s).heap T).base.GetTimer = (s.heap T).base.GetTimer ∧
    ((cancelRepeatAt T s).heap T).base.GetRepeat = false := by
  simp [InspTimer.CancelRepeat, InspTimer.GetRepeat, InspTimer.GetTimer, InspTimer.GetSecs,
    cancelRepeatAt, store]

/-- C7: the constructed timer has `GetSecs()` equal to the delay passed and
`GetRepeat()` equal to the flag passed, `false` when the flag is omitted;
`GetSecs()` is `GetTimer() - now`; and `CancelRepeat()`, the only member
function of `InspTimer` that writes a member, leaves `GetSecs()` as it
was. -/
theorem C7_interval_is_initial_delay (secs_from_now now : Int) (repeating : Bool)
    (t : InspTimer) :
    (InspTimer.init secs_from_now now repeating).GetSecs = secs_from_now ∧
    (InspTimer.init secs_from_now now repeating).GetRepeat = repeating ∧
    (InspTimer.initDefault secs_from_now now).GetRepeat = false ∧
    (InspTimer.initDefault secs_from_now now).GetSecs = secs_from_now ∧
    (InspTimer.init secs_from_now now repeating).GetSecs
      = (InspTimer.init secs_from_now now repeating).GetTimer - now ∧
    t.CancelRepeat.GetSecs = t.GetSecs := by
  simp [InspTimer.init, InspTimer.initDefault, InspTimer.GetSecs, InspTimer.GetRepeat,
    InspTimer.GetTimer, InspTimer.CancelRepeat]

/-! ## Theorems: `m_serverban.cpp` -/

/-- C8: with the matcher an arbitrary predicate, `OnCheckBan` returns
`MOD_RES_DENY` exactly when the mask is `s:` followed by a non-empty rest
(so longer than 2 characters) and the server name matches that rest; in
every other case, the mask `s:` included, it returns `MOD_RES_PASSTHRU`. -/
theorem C8_OnCheckBan (Match : List Char → List Char → Bool) (serverName mask : List Char) :
    (OnCheckBan Match serverName mask = ModResult.MOD_RES_DENY ↔
      (mask.length > 2 ∧ mask[0]? = some 's' ∧ mask[1]? = some ':' ∧
        Match serverName (mask.drop 2) = true)) ∧
    (OnCheckBan Match serverName mask = ModResult.MOD_RES_DENY ↔
      ∃ pattern, pattern ≠ [] ∧ mask = 's' :: ':' :: pattern ∧
        Match serverName pattern = true) ∧
    (OnCheckBan Match serverName mask = ModResult.MOD_RES_DENY ∨
      OnCheckBan Match serverName mask = ModResult.MOD_RES_PASSTHRU) ∧
    OnCheckBan Match serverName ['s', ':'] = ModResult.MOD_RES_PASSTHRU := by
  have key : OnCheckBan Match serverName mask = ModResult.MOD_RES_DENY ↔
      (mask.length > 2 ∧ mask[0]? = some 's' ∧ mask[1]? = some ':' ∧
        Match serverName (mask.drop 2) = true) := by
    match mask with
    | [] => simp [OnCheckBan]
    | [a] => simp [OnCheckBan]
    | [a, b] => simp [OnCheckBan]
    | a :: b :: c :: rest =>
        by_cases ha : a = 's' <;> by_cases hb : b = ':' <;>
          by_cases hm : Match serverName (c :: rest) = true <;>
          simp [OnCheckBan, ha, hb, hm]
  refine ⟨key, ?_, ?_, ?_⟩
  · rw [key]
    constructor
    · rintro ⟨hlen, h0, h1, hm⟩
      match mask, hlen, h0, h1, hm with
      | a :: b :: c :: rest, _, h0, h1, hm =>
          simp at h0 h1
          subst h0 h1
          exact ⟨c :: rest, by simp, rfl, by simpa using hm⟩
    · rintro ⟨pattern, hne, rfl, hm⟩
      cases pattern with
      | nil => exact absurd rfl hne
      | cons c rest => simp [hm]
  · unfold OnCheckBan
    split
    · split
      · exact Or.inl rfl
      · exact Or.inr rfl
    · exact Or.inr rfl
  · simp [OnCheckBan]

/-! ## Theorems: `m_permchannels.cpp` -/

/-- C10: `Tick` returns `true`, leaves `dirty` false, and calls
`WriteDatabase` exactly when `dirty` was set before the call (once then,
not at all otherwise); a second `Tick` right after the first writes
nothing, so two consecutive calls write at most once. -/
theorem C10_flush_Tick (m : ModulePermanentChannels) (time1 time2 : Int) :
    (m.Tick time1).1 = true ∧
    (m.Tick time1).2.dirty = false ∧
    (m.Tick time1).2.writes = m.writes + (if m.dirty then 1 else 0) ∧
    ((m.Tick time1).2.Tick time2).2.writes = (m.Tick time1).2.writes ∧
    ((m.Tick time1).2.Tick time2).2.writes ≤ m.writes + 1 ∧
    ((m.Tick time1).2.Tick time2).1 = true := by
  cases hd : m.dirty <;> simp [ModulePermanentChannels.Tick, hd]

/-! ## Theorems: the stored mode string -/

theorem appendParams_eq (list : List ListItem) (params : List Char) (n : Nat) :
    appendParams list (params, n)
      = (params ++ list.flatMap (fun k => k.mask ++ [' ']), n + list.length) := by
  induction list generalizing params n with
  | nil => simp [appendParams]
  | cons k rest ih =>
      simp [appendParams, ih, List.append_assoc]
      omega

theorem maskPairs_cons (lm : ListModeBase) (rest : List ListModeBase) :
    maskPairs (lm :: rest)
      = (match lm.list with
          | none => []
          | some list => list.map (fun k => (lm.modeChar, k.mask))) ++ maskPairs rest := by
  simp [maskPairs]

theorem collectListModes_eq (listmodes : List ListModeBase) (modes params : List Char) :
    collectListModes listmodes (modes, params)
      = (modes ++ (maskPairs listmodes).map Prod.fst,
         params ++ ((maskPairs listmodes).map Prod.snd).flatMap (fun m => m ++ [' '])) := by
  induction listmodes generalizing modes params with
  | nil => simp [collectListModes, maskPairs]
  | cons lm rest ih =>
      rw [maskPairs_cons]
      unfold collectListModes
      cases hl : lm.list with
      | none => simp [ih]
      | some list =>
          cases list with
          | nil => simp [ih]
          | cons k ks =>
              simp [ih, appendParams_eq, List.append_assoc, List.flatMap_map, List.map_map,
                Function.comp_def, List.map_const', List.replicate_succ,
                ← List.map_const', List.flatMap_def]

theorem joinedMasks_dropLast (masks : List (List Char)) (h : masks ≠ []) :
    (masks.flatMap (fun m => m ++ [' '])).dropLast = List.intercalate [' '] masks := by
  induction masks with
  | nil => exact absurd rfl h
  | cons m rest ih =>
      cases rest with
      | nil => simp [List.intercalate, List.intersperse]
      | cons m2 rest2 =>
          have ih2 := ih (by simp)
          have hne : (m2 :: rest2).flatMap (fun m => m ++ [' ']) ≠ [] := by simp
          rw [List.flatMap_cons, List.dropLast_append_of_ne_nil _ hne, ih2]
          simp [List.intercalate, List.intersperse, List.append_assoc]

theorem joinedMasks_isEmpty (masks : List (List Char)) :
    (masks.flatMap (fun m => m ++ [' '])).isEmpty = masks.isEmpty := by
  cases masks <;> simp

theorem findSpace_none (s : List Char) (h : findSpace s = none) :
    s.takeWhile (fun c => c != ' ') = s ∧ s.dropWhile (fun c => c != ' ') = [] := by
  induction s with
  | nil => simp
  | cons c rest ih =>
      unfold findSpace at h
      by_cases hc : c = ' '
      · simp [hc] at h
      · simp [hc] at h
        have := ih h
        simp [List.takeWhile_cons, List.dropWhile_cons, hc, this]

theorem findSpace_some (s : List Char) (p : Nat) (h : findSpace s = some p) :
    s.take p = s.takeWhile (fun c => c != ' ') ∧
    s.drop p = s.dropWhile (fun c => c != ' ') := by
  induction s generalizing p with
  | nil => simp [findSpace] at h
  | cons c rest ih =>
      unfold findSpace at h
      by_cases hc : c = ' '
      · simp [hc] at h
        subst h
        simp [hc]
      · simp [hc] at h
        obtain ⟨q, hq, rfl⟩ := h
        have := ih q hq
        simp [List.takeWhile_cons, List.dropWhile_cons, hc, this]

theorem intercalate_suffix (sep : List Char) (masks : List (List Char)) (m : List Char)
    (h : masks.getLast? = some m) : List.IsSuffix m (List.intercalate sep masks) := by
  induction masks with
  | nil => simp at h
  | cons a rest ih =>
      cases rest with
      | nil =>
          simp at h
          subst h
          simp [List.intercalate, List.intersperse]
      | cons b rest2 =>
          have h2 : (b :: rest2).getLast? = some m := by
            simpa [List.getLast?_cons_cons] using h
          obtain ⟨t, ht⟩ := ih h2
          refine ⟨a ++ sep ++ t, ?_⟩
          have : List.intercalate sep (a :: b :: rest2)
              = a ++ sep ++ List.intercalate sep (b :: rest2) := by
            simp [List.intercalate, List.intersperse, List.append_assoc]
          rw [this, ← ht]
          simp [List.append_assoc]

/-- C9: with `save_listmodes` set, when some list holds a mask the stored
mode string is `chanmodes` with one mode letter per mask put immediately
before its first space (appended when it has none), then one space, then
the masks joined by single spaces; the string ends with the last mask, so
no space trails it; letters and masks are the two projections of one list
of pairs, so they are equally many and in the same order.  When no list
holds a mask the string is `chanmodes` unchanged. -/
theorem C9_storedModes (chanmodes : List Char) (listmodes : List ListModeBase) :
    storedModes true chanmodes listmodes
      = (if maskPairs listmodes = [] then chanmodes
         else describedModes chanmodes (maskPairs listmodes)) ∧
    ((maskPairs listmodes).map Prod.fst).length
      = ((maskPairs listmodes).map Prod.snd).length ∧
    ∀ m, ((maskPairs listmodes).map Prod.snd).getLast? = some m →
      List.IsSuffix m (storedModes true chanmodes listmodes) := by
  have main : storedModes true chanmodes listmodes
      = (if maskPairs listmodes = [] then chanmodes
         else describedModes chanmodes (maskPairs listmodes)) := by
    unfold storedModes
    simp only [if_true, collectListModes_eq, List.nil_append]
    by_cases hp : maskPairs listmodes = []
    · simp [hp]
    · have hm : (maskPairs listmodes).map Prod.snd ≠ [] := by simpa using hp
      have he : (((maskPairs listmodes).map Prod.snd).flatMap (fun m => m ++ [' '])).isEmpty
          = false := by
        rw [joinedMasks_isEmpty]; simpa using hp
      simp only [he, Bool.not_false, if_true, hp, if_false, joinedMasks_dropLast _ hm]
      unfold describedModes
      cases hf : findSpace chanmodes with
      | none =>
          obtain ⟨h1, h2⟩ := findSpace_none chanmodes hf
          simp [h1, h2]
      | some p =>
          obtain ⟨h1, h2⟩ := findSpace_some chanmodes p hf
          simp [stringInsert, h1, h2]
  refine ⟨main, by simp, ?_⟩
  intro m hm
  have hp : maskPairs listmodes ≠ [] := by
    intro h0
    rw [h0] at hm
    simp at hm
  rw [main, if_neg hp]
  obtain ⟨t, ht⟩ := intercalate_suffix [' '] _ m hm
  unfold describedModes
  rw [← ht]
  exact ⟨chanmodes.takeWhile (fun c => c != ' ') ++ (maskPairs listmodes).map Prod.fst ++
    chanmodes.dropWhile (fun c => c != ' ') ++ [' '] ++ t, by simp only [List.append_assoc]⟩

/-! ## Lemmas: filing and unfiling in the map -/

theorem filedUnder_nil (k : Int) (T : Nat) : ¬ filedUnder [] k T := by
  simp [filedUnder]

theorem filedUnder_cons (k2 : Int) (g2 : timergroup) (l : timerlist) (k : Int) (T : Nat) :
    filedUnder ((k2, g2) :: l) k T ↔ (k = k2 ∧ T ∈ g2) ∨ filedUnder l k T := by
  simp only [filedUnder, List.mem_cons, Prod.mk.injEq]
  constructor
  · rintro ⟨g, (⟨rfl, rfl⟩ | h), hT⟩
    · exact Or.inl ⟨rfl, hT⟩
    · exact Or.inr ⟨g, h, hT⟩
  · rintro (⟨rfl, hT⟩ | ⟨g, h, hT⟩)
    · exact ⟨g2, Or.inl ⟨rfl, rfl⟩, hT⟩
    · exact ⟨g, Or.inr h, hT⟩

theorem scheduled_iff (T : Nat) (l : timerlist) :
    scheduled T l = true ↔ ∃ k, filedUnder l k T := by
  simp only [scheduled, filedUnder, List.any_eq_true]
  constructor
  · rintro ⟨⟨k, g⟩, he, hT⟩
    exact ⟨k, g, he, by simpa using hT⟩
  · rintro ⟨k, g, he, hT⟩
    exact ⟨(k, g), he, by simpa using hT⟩

theorem scheduled_false_iff (T : Nat) (l : timerlist) :
    scheduled T l = false ↔ ∀ k, ¬ filedUnder l k T := by
  rw [← Bool.not_eq_true, scheduled_iff]
  simp

theorem fileTimer_entries (k : Int) (T : Nat) (l : timerlist) (e : Int × timergroup)
    (he : e ∈ fileTimer k T l) :
    e ∈ l ∨ e = (k, [T]) ∨ ∃ g, (k, g) ∈ l ∧ e = (k, g ++ [T]) := by
  induction l with
  | nil =>
      simp [fileTimer] at he
      exact Or.inr (Or.inl he)
  | cons a rest ih =>
      obtain ⟨k1, g1⟩ := a
      unfold fileTimer at he
      split at he
      · rcases List.mem_cons.1 he with h | h
        · exact Or.inr (Or.inl h)
        · exact Or.inl h
      · split at he
        · rename_i hk
          rcases List.mem_cons.1 he with h | h
          · exact Or.inr (Or.inr ⟨g1, by simp [hk], by simp [h, hk]⟩)
          · exact Or.inl (List.mem_cons_of_mem _ h)
        · rcases List.mem_cons.1 he with h | h
          · exact Or.inl (by simp [h])
          · rcases ih h with h1 | h1 | ⟨g, hg, h1⟩
            · exact Or.inl (List.mem_cons_of_mem _ h1)
            · exact Or.inr (Or.inl h1)
            · exact Or.inr (Or.inr ⟨g, List.mem_cons_of_mem _ hg, h1⟩)

theorem filedUnder_fileTimer (k : Int) (T : Nat) (l : timerlist) (k1 : Int) (T1 : Nat) :
    filedUnder (fileTimer k T l) k1 T1 ↔ filedUnder l k1 T1 ∨ (k1 = k ∧ T1 = T) := by
  induction l with
  | nil =>
      simp only [fileTimer, filedUnder_cons, List.mem_singleton]
      simp [filedUnder_nil]
  | cons a rest ih =>
      obtain ⟨k2, g2⟩ := a
      unfold fileTimer
      split
      · simp only [filedUnder_cons, List.mem_singleton]
        tauto
      · split
        · rename_i hk
          subst hk
          simp only [filedUnder_cons, List.mem_append, List.mem_singleton]
          tauto
        · simp only [filedUnder_cons, ih]
          tauto

theorem fileTimer_keys (k : Int) (T : Nat) (l : timerlist) (k1 : Int)
    (h : k1 ∈ (fileTimer k T l).map Prod.fst) : k1 = k ∨ k1 ∈ l.map Prod.fst := by
  obtain ⟨e, he, rfl⟩ := List.mem_map.1 h
  rcases fileTimer_entries k T l e he with h1 | h1 | ⟨g, hg, h1⟩
  · exact Or.inr (List.mem_map.2 ⟨e, h1, rfl⟩)
  · exact Or.inl (by simp [h1])
  · exact Or.inl (by simp [h1])

theorem fileTimer_sorted (k : Int) (T : Nat) (l : timerlist)
    (h : List.Pairwise (fun a b => a < b) (l.map Prod.fst)) :
    List.Pairwise (fun a b => a < b) ((fileTimer k T l).map Prod.fst) := by
  induction l with
  | nil => simp [fileTimer]
  | cons a rest ih =>
      obtain ⟨k2, g2⟩ := a
      simp only [List.map_cons, List.pairwise_cons] at h
      obtain ⟨h1, h2⟩ := h
      unfold fileTimer
      split
      · rename_i hlt
        simp only [List.map_cons, List.pairwise_cons, List.mem_cons]
        refine ⟨?_, h1, h2⟩
        rintro b (rfl | hb)
        · exact hlt
        · exact lt_trans hlt (h1 b hb)
      · split
        · simp only [List.map_cons, List.pairwise_cons]
          exact ⟨h1, h2⟩
        · rename_i hnlt hne
          simp only [List.map_cons, List.pairwise_cons]
          refine ⟨?_, ih h2⟩
          intro b hb
          rcases fileTimer_keys k T rest b hb with rfl | hb
          · omega
          · exact h1 b hb

theorem unfileTimer_entries (k : Int) (T : Nat) (l : timerlist) (e : Int × timergroup)
    (he : e ∈ unfileTimer k T l) :
    e ∈ l ∨ ∃ g, (k, g) ∈ l ∧ e = (k, g.erase T) := by
  induction l with
  | nil => simp [unfileTimer] at he
  | cons a rest ih =>
      obtain ⟨k1, g1⟩ := a
      unfold unfileTimer at he
      split at he
      · rename_i hk
        split at he
        · exact Or.inl (List.mem_cons_of_mem _ he)
        · rcases List.mem_cons.1 he with h | h
          · exact Or.inr ⟨g1, by simp [hk], by simp [h, hk]⟩
          · exact Or.inl (List.mem_cons_of_mem _ h)
      · rcases List.mem_cons.1 he with h | h
        · exact Or.inl (by simp [h])
        · rcases ih h with h1 | ⟨g, hg, h1⟩
          · exact Or.inl (List.mem_cons_of_mem _ h1)
          · exact Or.inr ⟨g, List.mem_cons_of_mem _ hg, h1⟩

theorem unfileTimer_sublist (k : Int) (T : Nat) (l : timerlist) :
    List.Sublist ((unfileTimer k T l).map Prod.fst) (l.map Prod.fst) := by
  induction l with
  | nil => simp [unfileTimer]
  | cons a rest ih =>
      obtain ⟨k1, g1⟩ := a
      unfold unfileTimer
      split
      · split
        · simp
        · simp
      · simpa using ih

theorem filedUnder_unfileTimer_of_ne (k : Int) (T : Nat) (l : timerlist) (k1 : Int) (T1 : Nat)
    (hne : T1 ≠ T) (h : filedUnder l k1 T1) : filedUnder (unfileTimer k T l) k1 T1 := by
  induction l with
  | nil => exact absurd h (filedUnder_nil _ _)
  | cons a rest ih =>
      obtain ⟨k2, g2⟩ := a
      rw [filedUnder_cons] at h
      unfold unfileTimer
      split
      · rename_i hk
        have hmem : T1 ∈ g2 → T1 ∈ g2.erase T := fun hm => (List.mem_erase_of_ne hne).2 hm
        split
        · rename_i hemp
          rcases h with ⟨_, hT⟩ | h
          · have hin := hmem hT
            have hnil : g2.erase T = [] := List.isEmpty_iff.1 hemp
            rw [hnil] at hin
            exact absurd hin (List.not_mem_nil _)
          · exact h
        · rw [filedUnder_cons]
          rcases h with ⟨h1, hT⟩ | h
          · exact Or.inl ⟨h1, hmem hT⟩
          · exact Or.inr h
      · rw [filedUnder_cons]
        rcases h with h | h
        · exact Or.inl h
        · exact Or.inr (ih h)

theorem filedUnder_of_unfileTimer (k : Int) (T : Nat) (l : timerlist) (k1 : Int) (T1 : Nat)
    (h : filedUnder (unfileTimer k T l) k1 T1) : filedUnder l k1 T1 := by
  obtain ⟨g, hg, hT⟩ := h
  rcases unfileTimer_entries k T l _ hg with h1 | ⟨g1, hg1, h1⟩
  · exact ⟨g, h1, hT⟩
  · simp only [Prod.mk.injEq] at h1
    obtain ⟨rfl, rfl⟩ := h1
    exact ⟨g1, hg1, List.mem_of_mem_erase hT⟩

/-! ## Lemmas: well-formedness is kept by every operation -/

theorem WF_trigger (s : State) (h : WF s) (k : Int) (T : Nat)
    (hf : filedUnder s.manager.Timers k T) : (s.heap T).base.GetTimer = k := by
  obtain ⟨g, hg, hT⟩ := hf
  exact (h.2 (k, g) hg).2 T hT

theorem WF_file (heap : Nat → TimerObject) (l : timerlist) (T : Nat) (obj : TimerObject)
    (h : WF { heap := heap, manager := { Timers := l } })
    (hns : scheduled T l = false) :
    WF { heap := store heap T obj
         manager := { Timers := fileTimer obj.base.GetTimer T l } } := by
  have hno : ∀ e ∈ l, T ∉ e.2 := by
    intro e he hT
    exact (scheduled_false_iff T l).1 hns e.1 ⟨e.2, he, hT⟩
  refine ⟨fileTimer_sorted _ _ _ h.1, ?_⟩
  intro e he
  have hold : ∀ e ∈ l, ∀ x ∈ e.2, ((store heap T obj) x).base.GetTimer = e.1 := by
    intro e1 he1 x hx
    have hxT : x ≠ T := fun hEq => hno e1 he1 (hEq ▸ hx)
    simpa [store, hxT] using (h.2 e1 he1).2 x hx
  rcases fileTimer_entries _ _ _ e he with h1 | h1 | ⟨g, hg, h1⟩
  · exact ⟨(h.2 e h1).1, hold e h1⟩
  · subst h1
    refine ⟨by simp, ?_⟩
    intro x hx
    simp at hx
    simp [store, hx]
  · subst h1
    have hTg : T ∉ g := hno _ hg
    refine ⟨?_, ?_⟩
    · have hnd := (h.2 _ hg).1
      simp only at hnd ⊢
      rw [List.nodup_append]
      refine ⟨hnd, by simp, ?_⟩
      intro a ha hb
      simp at hb
      exact hTg (hb ▸ ha)
    · intro x hx
      rcases List.mem_append.1 hx with hx | hx
      · exact hold _ hg x hx
      · simp at hx
        simp [store, hx]

theorem WF_store (s : State) (T : Nat) (obj : TimerObject) (h : WF s)
    (hns : scheduled T s.manager.Timers = false) :
    WF { heap := store s.heap T obj, manager := s.manager } := by
  refine ⟨h.1, ?_⟩
  intro e he
  refine ⟨(h.2 e he).1, ?_⟩
  intro x hx
  have hxT : x ≠ T := by
    intro hEq
    exact (scheduled_false_iff T _).1 hns e.1 ⟨e.2, he, hEq ▸ hx⟩
  simpa [store, hxT] using (h.2 e he).2 x hx

theorem WF_AddTimer (clock : Int) (T : Nat) (secs_from_now : Int) (s s1 : State)
    (h : WF s) (hadd : AddTimer clock T secs_from_now s = Except.ok s1) : WF s1 := by
  unfold AddTimer at hadd
  split at hadd
  · simp at hadd
  · rename_i hns
    simp only [Except.ok.injEq] at hadd
    subst hadd
    exact WF_file s.heap s.manager.Timers T _ h (by simpa using hns)

theorem WF_DelTimer (T : Nat) (s : State) (h : WF s) : WF (DelTimer T s) := by
  refine ⟨List.Pairwise.sublist (unfileTimer_sublist _ _ _) h.1, ?_⟩
  intro e he
  rcases unfileTimer_entries _ _ _ e he with h1 | ⟨g, hg, h1⟩
  · exact h.2 e h1
  · subst h1
    refine ⟨List.Nodup.erase _ (h.2 _ hg).1, ?_⟩
    intro x hx
    exact (h.2 _ hg).2 x (List.mem_of_mem_erase hx)

theorem store_store (heap : Nat → TimerObject) (T : Nat) (a b : TimerObject) :
    store (store heap T a) T b = store heap T b := by
  funext x
  simp only [store]
  split <;> rfl

theorem tickOne_eq (now : Int) (s : State) (log : List Nat) (T : Nat)
    (hns : scheduled T s.manager.Timers = false) :
    tickOne now (s, log) T =
      ({ heap := store s.heap T (afterTick now (s.heap T))
         manager :=
          { Timers :=
              if (fire now (s.heap T)).base.GetRepeat then
                fileTimer (afterTick now (s.heap T)).base.GetTimer T s.manager.Timers
              else s.manager.Timers } },
        log ++ [T]) := by
  unfold tickOne afterTick
  by_cases hr : (fire now (s.heap T)).base.GetRepeat = true
  · simp only [hr, if_true]
    simp [AddTimer, hns, store_store, store]
  · simp only [hr, if_false]
    simp

/-! ## Lemmas: one pass of `TickTimers` -/

theorem tickOne_WF (now : Int) (s : State) (log : List Nat) (T : Nat) (h : WF s)
    (hns : scheduled T s.manager.Timers = false) : WF (tickOne now (s, log) T).1 := by
  rw [tickOne_eq now s log T hns]
  by_cases hr : (fire now (s.heap T)).base.GetRepeat = true
  · simp only [hr, if_true]
    exact WF_file s.heap s.manager.Timers T _ h hns
  · simp only [hr, if_false]
    exact WF_store s T _ h hns

theorem tickOne_filedUnder (now : Int) (s : State) (log : List Nat) (T : Nat)
    (hns : scheduled T s.manager.Timers = false) (k : Int) (x : Nat) :
    filedUnder (tickOne now (s, log) T).1.manager.Timers k x ↔
      filedUnder s.manager.Timers k x ∨
        (x = T ∧ (fire now (s.heap T)).base.GetRepeat = true ∧
          k = (afterTick now (s.heap T)).base.GetTimer) := by
  rw [tickOne_eq now s log T hns]
  by_cases hr : (fire now (s.heap T)).base.GetRepeat = true
  · simp only [hr, if_true, filedUnder_fileTimer]
    tauto
  · simp only [hr, if_false]
    simp

theorem foldl_tickOne (now : Int) (ids : List Nat) (s : State) (log : List Nat)
    (hnd : ids.Nodup) (hns : ∀ T ∈ ids, scheduled T s.manager.Timers = false) (h : WF s) :
    (ids.foldl (tickOne now) (s, log)).2 = log ++ ids ∧
    WF (ids.foldl (tickOne now) (s, log)).1 ∧
    (∀ x, (ids.foldl (tickOne now) (s, log)).1.heap x
        = if x ∈ ids then afterTick now (s.heap x) else s.heap x) ∧
    (∀ k x, filedUnder (ids.foldl (tickOne now) (s, log)).1.manager.Timers k x ↔
        filedUnder s.manager.Timers k x ∨
          (x ∈ ids ∧ (fire now (s.heap x)).base.GetRepeat = true ∧
            k = (afterTick now (s.heap x)).base.GetTimer)) := by
  induction ids generalizing s log with
  | nil => simp [h]
  | cons T rest ih =>
      have hT : scheduled T s.manager.Timers = false := hns T (List.mem_cons_self _ _)
      have hTrest : T ∉ rest := (List.nodup_cons.1 hnd).1
      have hnd2 : rest.Nodup := (List.nodup_cons.1 hnd).2
      have heq := tickOne_eq now s log T hT
      have hwf1 := tickOne_WF now s log T h hT
      have hfu := tickOne_filedUnder now s log T hT
      have hheap : ∀ x, (tickOne now (s, log) T).1.heap x
          = if x = T then afterTick now (s.heap T) else s.heap x := by
        intro x
        rw [heq]
        simp [store]
      have hlog : (tickOne now (s, log) T).2 = log ++ [T] := by rw [heq]
      have hns1 : ∀ x ∈ rest, scheduled x (tickOne now (s, log) T).1.manager.Timers = false := by
        intro x hx
        rw [scheduled_false_iff]
        intro k hk
        rcases (hfu k x).1 hk with h1 | ⟨h1, _, _⟩
        · exact (scheduled_false_iff x _).1 (hns x (List.mem_cons_of_mem _ hx)) k h1
        · exact hTrest (h1 ▸ hx)
      obtain ⟨i1, i2, i3, i4⟩ :=
        ih (tickOne now (s, log) T).1 (tickOne now (s, log) T).2 hnd2 hns1 hwf1
      simp only [List.foldl_cons]
      refine ⟨?_, i2, ?_, ?_⟩
      · rw [i1, hlog]; simp
      · intro x
        rw [i3 x, hheap x]
        by_cases hxT : x = T
        · subst hxT
          simp [hTrest]
        · by_cases hxr : x ∈ rest
          · simp [hxT, hxr]
          · simp [hxT, hxr]
      · intro k x
        rw [i4 k x, hfu k x, hheap x]
        by_cases hxT : x = T
        · subst hxT
          simp [hTrest]
        · simp [hxT]

theorem mem_timersOf (l : timerlist) (T : Nat) : T ∈ timersOf l ↔ ∃ k, filedUnder l k T := by
  induction l with
  | nil => simp [timersOf, filedUnder]
  | cons a rest ih =>
      obtain ⟨k2, g2⟩ := a
      simp only [timersOf, List.mem_append, ih, filedUnder_cons]
      constructor
      · rintro (h | ⟨k, h⟩)
        · exact ⟨k2, Or.inl ⟨rfl, h⟩⟩
        · exact ⟨k, Or.inr h⟩
      · rintro ⟨k, (⟨_, h⟩ | h)⟩
        · exact Or.inl h
        · exact Or.inr ⟨k, h⟩

theorem WF_tail (heap : Nat → TimerObject) (a : Int × timergroup) (l : timerlist)
    (h : WF { heap := heap, manager := { Timers := a :: l } }) :
    WF { heap := heap, manager := { Timers := l } } := by
  refine ⟨?_, fun e he => h.2 e (List.mem_cons_of_mem _ he)⟩
  have := h.1
  simp only [List.map_cons, List.pairwise_cons] at this
  exact this.2

theorem WF_head_not_later (heap : Nat → TimerObject) (k : Int) (g : timergroup)
    (l : timerlist) (h : WF { heap := heap, manager := { Timers := (k, g) :: l } })
    (T : Nat) (hT : T ∈ g) : T ∉ timersOf l := by
  intro hin
  obtain ⟨k1, hk1⟩ := (mem_timersOf l T).1 hin
  have e1 := WF_trigger _ h k T ((filedUnder_cons _ _ _ _ _).2 (Or.inl ⟨rfl, hT⟩))
  have e2 := WF_trigger _ h k1 T ((filedUnder_cons _ _ _ _ _).2 (Or.inr hk1))
  have hkk : k1 = k := by rw [← e1, ← e2]
  obtain ⟨g1, hg1, _⟩ := hk1
  have hs := h.1
  simp only [List.map_cons, List.pairwise_cons] at hs
  have := hs.1 k1 (List.mem_map.2 ⟨(k1, g1), hg1, rfl⟩)
  omega

theorem WF_timersOf_nodup (heap : Nat → TimerObject) (l : timerlist)
    (h : WF { heap := heap, manager := { Timers := l } }) : (timersOf l).Nodup := by
  induction l with
  | nil => simp [timersOf]
  | cons a rest ih =>
      obtain ⟨k, g⟩ := a
      simp only [timersOf]
      rw [List.nodup_append]
      refine ⟨(h.2 (k, g) (List.mem_cons_self _ _)).1, ih (WF_tail heap _ _ h), ?_⟩
      intro x hx hx2
      exact WF_head_not_later heap k g rest h x hx hx2

theorem WF_sublist (heap : Nat → TimerObject) (l l1 : timerlist) (hsub : List.Sublist l1 l)
    (h : WF { heap := heap, manager := { Timers := l } }) :
    WF { heap := heap, manager := { Timers := l1 } } :=
  ⟨List.Pairwise.sublist (List.Sublist.map Prod.fst hsub) h.1,
    fun e he => h.2 e (hsub.subset he)⟩

theorem later_keys (now : Int) (l : timerlist)
    (h : List.Pairwise (fun a b => a < b) (l.map Prod.fst)) :
    ∀ e ∈ l.dropWhile (fun e => decide (e.1 ≤ now)), now < e.1 := by
  induction l with
  | nil => simp
  | cons a rest ih =>
      simp only [List.map_cons, List.pairwise_cons] at h
      by_cases ha : a.1 ≤ now
      · simp only [List.dropWhile_cons, ha, decide_True, if_true]
        exact ih h.2
      · simp only [List.dropWhile_cons, ha, decide_False]
        intro e he
        simp only [Bool.false_eq_true, if_false, List.mem_cons] at he
        rcases he with rfl | he
        · omega
        · have := h.1 e.1 (List.mem_map.2 ⟨e, he, rfl⟩)
          omega

theorem due_keys (now : Int) (l : timerlist) :
    ∀ e ∈ l.takeWhile (fun e => decide (e.1 ≤ now)), e.1 ≤ now := by
  intro e he
  simpa using List.mem_takeWhile_imp he

theorem filedUnder_append (l1 l2 : timerlist) (k : Int) (T : Nat) :
    filedUnder (l1 ++ l2) k T ↔ filedUnder l1 k T ∨ filedUnder l2 k T := by
  simp only [filedUnder, List.mem_append]
  constructor
  · rintro ⟨g, h | h, hT⟩
    · exact Or.inl ⟨g, h, hT⟩
    · exact Or.inr ⟨g, h, hT⟩
  · rintro (⟨g, h, hT⟩ | ⟨g, h, hT⟩)
    · exact ⟨g, Or.inl h, hT⟩
    · exact ⟨g, Or.inr h, hT⟩

theorem filedUnder_split (now : Int) (l : timerlist) (k : Int) (T : Nat) :
    filedUnder l k T ↔
      filedUnder (l.takeWhile (fun e => decide (e.1 ≤ now))) k T ∨
      filedUnder (l.dropWhile (fun e => decide (e.1 ≤ now))) k T := by
  rw [← filedUnder_append, List.takeWhile_append_dropWhile]

theorem filedUnder_due (now : Int) (l : timerlist)
    (h : List.Pairwise (fun a b => a < b) (l.map Prod.fst)) (k : Int) (T : Nat) :
    filedUnder (l.takeWhile (fun e => decide (e.1 ≤ now))) k T ↔
      filedUnder l k T ∧ k ≤ now := by
  constructor
  · intro hd
    refine ⟨(filedUnder_split now l k T).2 (Or.inl hd), ?_⟩
    obtain ⟨g, hg, _⟩ := hd
    exact due_keys now l _ hg
  · rintro ⟨hf, hk⟩
    rcases (filedUnder_split now l k T).1 hf with h1 | ⟨g, hg, _⟩
    · exact h1
    · have := later_keys now l h _ hg
      simp only at this
      omega

theorem filedUnder_later (now : Int) (l : timerlist)
    (h : List.Pairwise (fun a b => a < b) (l.map Prod.fst)) (k : Int) (T : Nat) :
    filedUnder (l.dropWhile (fun e => decide (e.1 ≤ now))) k T ↔
      filedUnder l k T ∧ now < k := by
  constructor
  · intro hd
    refine ⟨(filedUnder_split now l k T).2 (Or.inr hd), ?_⟩
    obtain ⟨g, hg, _⟩ := hd
    exact later_keys now l h _ hg
  · rintro ⟨hf, hk⟩
    rcases (filedUnder_split now l k T).1 hf with ⟨g, hg, _⟩ | h1
    · have := due_keys now l _ hg
      simp only at this
      omega
    · exact h1

/-- What one call of `TickTimers` does to a well-formed state. -/
theorem TickTimers_spec (now : Int) (s : State) (h : WF s) :
    WF (TickTimers now s).1 ∧
    (TickTimers now s).2.Nodup ∧
    (∀ x, x ∈ (TickTimers now s).2 ↔ ∃ k, filedUnder s.manager.Timers k x ∧ k ≤ now) ∧
    (∀ x, (TickTimers now s).1.heap x
        = if x ∈ (TickTimers now s).2 then afterTick now (s.heap x) else s.heap x) ∧
    (∀ k x, filedUnder (TickTimers now s).1.manager.Timers k x ↔
        (filedUnder s.manager.Timers k x ∧ now < k) ∨
          (x ∈ (TickTimers now s).2 ∧ (fire now (s.heap x)).base.GetRepeat = true ∧
            k = (afterTick now (s.heap x)).base.GetTimer)) := by
  have hs : WF { heap := s.heap, manager := { Timers := s.manager.Timers } } := h
  have hdue := WF_sublist s.heap _ _
    (List.takeWhile_sublist (fun e : Int × timergroup => decide (e.1 ≤ now))) hs
  have hlater := WF_sublist s.heap _ _
    (List.dropWhile_sublist (fun e : Int × timergroup => decide (e.1 ≤ now))) hs
  have hnd := WF_timersOf_nodup s.heap _ hdue
  have hmem : ∀ x, x ∈ timersOf (s.manager.Timers.takeWhile (fun e => decide (e.1 ≤ now))) ↔
      ∃ k, filedUnder s.manager.Timers k x ∧ k ≤ now := by
    intro x
    rw [mem_timersOf]
    exact exists_congr (fun k => filedUnder_due now _ h.1 k x)
  have hns : ∀ T ∈ timersOf (s.manager.Timers.takeWhile (fun e => decide (e.1 ≤ now))),
      scheduled T (s.manager.Timers.dropWhile (fun e => decide (e.1 ≤ now))) = false := by
    intro T hT
    rw [scheduled_false_iff]
    intro k2 hk2
    obtain ⟨k1, hk1, hle⟩ := (hmem T).1 hT
    obtain ⟨hk2l, hlt⟩ := (filedUnder_later now _ h.1 k2 T).1 hk2
    have e1 := WF_trigger s h k1 T hk1
    have e2 := WF_trigger s h k2 T hk2l
    omega
  obtain ⟨f1, f2, f3, f4⟩ := foldl_tickOne now _
    { heap := s.heap
      manager := { Timers := List.dropWhile (fun e => decide (e.1 ≤ now)) s.manager.Timers } }
    [] hnd hns hlater
  have hlog : (TickTimers now s).2
      = timersOf (s.manager.Timers.takeWhile (fun e => decide (e.1 ≤ now))) := by
    unfold TickTimers
    simpa using f1
  refine ⟨f2, ?_, ?_, ?_, ?_⟩
  · rw [hlog]; exact hnd
  · intro x; rw [hlog]; exact hmem x
  · intro x; rw [hlog]; exact f3 x
  · intro k x
    rw [hlog]
    have := f4 k x
    simp only [filedUnder_later now _ h.1] at this
    exact this

/-! ## Lemmas: sequences of calls -/

theorem WF_empty (heap : Nat → TimerObject) : WF (State.empty heap) := by
  simp [WF, State.empty]

theorem WF_run (c : Call) (s : State) (h : WF s) : WF (c.run s).1 := by
  cases c with
  | AddTimer clock T secs =>
      simp only [Call.run]
      cases hadd : AddTimer clock T secs s with
      | ok s1 => exact WF_AddTimer clock T secs s s1 h hadd
      | error e => exact h
  | DelTimer T => exact WF_DelTimer T s h
  | TickTimers TIME => exact (TickTimers_spec TIME s h).1

theorem WF_runCalls (calls : List Call) (s : State) (h : WF s) : WF (runCalls calls s).1 := by
  induction calls generalizing s with
  | nil => exact h
  | cons c rest ih => exact ih (c.run s).1 (WF_run c s h)

theorem WF_reach (heap : Nat → TimerObject) (calls : List Call) : WF (reach heap calls) :=
  WF_runCalls calls _ (WF_empty heap)

theorem groupsOf_cons (T : Nat) (a : Int × timergroup) (rest : timerlist) :
    groupsOf T (a :: rest)
      = if a.2.contains T = true then a :: groupsOf T rest else groupsOf T rest := by
  simp only [groupsOf, List.filter_cons]

theorem scheduled_cons (T : Nat) (a : Int × timergroup) (rest : timerlist) :
    scheduled T (a :: rest) = (a.2.contains T || scheduled T rest) := by
  simp only [scheduled, List.any_cons]

theorem groupsOf_length (T : Nat) (c : Int) (l : timerlist)
    (hs : List.Pairwise (fun a b => a < b) (l.map Prod.fst))
    (hk : ∀ e ∈ l, T ∈ e.2 → e.1 = c) (hsch : scheduled T l = true) :
    (groupsOf T l).length = 1 := by
  induction l with
  | nil => simp [scheduled] at hsch
  | cons a rest ih =>
      simp only [List.map_cons, List.pairwise_cons] at hs
      rw [groupsOf_cons]
      rw [scheduled_cons] at hsch
      by_cases ha : T ∈ a.2
      · have hnone : groupsOf T rest = [] := by
          simp only [groupsOf, List.filter_eq_nil_iff]
          intro e he hTe
          have hTe2 : T ∈ e.2 := by simpa using hTe
          have h1 := hk e (List.mem_cons_of_mem _ he) hTe2
          have h2 := hk a (List.mem_cons_self _ _) ha
          have h3 := hs.1 e.1 (List.mem_map.2 ⟨e, he, rfl⟩)
          omega
        have hfa : (a.2.contains T) = true := by simpa using ha
        rw [if_pos hfa, hnone]
        rfl
      · have hfa : (a.2.contains T) = false := by simpa using ha
        rw [hfa] at hsch
        rw [hfa]
        simp only [Bool.false_eq_true, if_false]
        exact ih hs.2 (fun e he => hk e (List.mem_cons_of_mem _ he)) (by simpa using hsch)

theorem fire_GetRepeat (now : Int) (obj : TimerObject) :
    (fire now obj).base.GetRepeat = (obj.base.GetRepeat && obj.action now) := by
  unfold fire
  cases ha : obj.action now <;> simp [InspTimer.CancelRepeat, InspTimer.GetRepeat]

theorem AddTimer_heap_other (clock : Int) (T1 : Nat) (secs : Int) (s s1 : State) (T : Nat)
    (hne : T1 ≠ T) (hadd : AddTimer clock T1 secs s = Except.ok s1) :
    s1.heap T = s.heap T ∧
    ∀ k, filedUnder s1.manager.Timers k T ↔ filedUnder s.manager.Timers k T := by
  unfold AddTimer at hadd
  split at hadd
  · simp at hadd
  · simp only [Except.ok.injEq] at hadd
    subst hadd
    refine ⟨by simp [store, Ne.symm hne], ?_⟩
    intro k
    simp only [filedUnder_fileTimer]
    constructor
    · rintro (h | ⟨_, h⟩)
      · exact h
      · exact absurd h.symm hne
    · exact fun h => Or.inl h

/-- A call that avoids a pending one-shot timer and is not a tick at or
after its trigger leaves it pending and does not fire it. -/
theorem pending_run (c : Call) (s : State) (T : Nat) (due : Int) (h : WF s)
    (hf : filedUnder s.manager.Timers due T) (hav : c.avoids T = true)
    (hbe : c.before due = true) :
    filedUnder (c.run s).1.manager.Timers due T ∧ (c.run s).1.heap T = s.heap T ∧
      T ∉ (c.run s).2 := by
  cases c with
  | AddTimer clock T1 secs =>
      have hne : T1 ≠ T := by simpa [Call.avoids] using hav
      simp only [Call.run]
      cases hadd : AddTimer clock T1 secs s with
      | ok s1 =>
          obtain ⟨h1, h2⟩ := AddTimer_heap_other clock T1 secs s s1 T hne hadd
          exact ⟨(h2 due).2 hf, h1, by simp⟩
      | error e => exact ⟨hf, rfl, by simp⟩
  | DelTimer T1 =>
      have hne : T1 ≠ T := by simpa [Call.avoids] using hav
      exact ⟨filedUnder_unfileTimer_of_ne _ T1 _ due T (Ne.symm hne) hf, rfl, by simp [Call.run]⟩
  | TickTimers TIME =>
      have hlt : TIME < due := by simpa [Call.before] using hbe
      obtain ⟨_, _, t3, t4, t5⟩ := TickTimers_spec TIME s h
      have hnot : T ∉ (TickTimers TIME s).2 := by
        intro hin
        obtain ⟨k, hk, hle⟩ := (t3 T).1 hin
        have e1 := WF_trigger s h k T hk
        have e2 := WF_trigger s h due T hf
        omega
      refine ⟨(t5 due T).2 (Or.inl ⟨hf, hlt⟩), ?_, hnot⟩
      simp only [Call.run]
      rw [t4 T, if_neg hnot]

theorem pending_runCalls (calls : List Call) (s : State) (T : Nat) (due : Int) (h : WF s)
    (hf : filedUnder s.manager.Timers due T)
    (hc : ∀ c ∈ calls, c.avoids T = true ∧ c.before due = true) :
    filedUnder (runCalls calls s).1.manager.Timers due T ∧
      (runCalls calls s).1.heap T = s.heap T ∧ T ∉ (runCalls calls s).2 := by
  induction calls generalizing s with
  | nil => exact ⟨hf, rfl, by simp [runCalls]⟩
  | cons c rest ih =>
      obtain ⟨hav, hbe⟩ := hc c (List.mem_cons_self _ _)
      obtain ⟨p1, p2, p3⟩ := pending_run c s T due h hf hav hbe
      obtain ⟨q1, q2, q3⟩ := ih (c.run s).1 (WF_run c s h) p1
        (fun c1 hc1 => hc c1 (List.mem_cons_of_mem _ hc1))
      refine ⟨q1, by rw [← p2]; exact q2, ?_⟩
      simp only [runCalls, List.mem_append]
      rintro (h1 | h1)
      · exact p3 h1
      · exact q3 h1

/-- A call that avoids an unscheduled timer leaves it unscheduled and does
not fire it. -/
theorem absent_run (c : Call) (s : State) (T : Nat) (h : WF s)
    (hns : scheduled T s.manager.Timers = false) (hav : c.avoids T = true) :
    scheduled T (c.run s).1.manager.Timers = false ∧ T ∉ (c.run s).2 := by
  rw [scheduled_false_iff] at hns ⊢
  cases c with
  | AddTimer clock T1 secs =>
      have hne : T1 ≠ T := by simpa [Call.avoids] using hav
      simp only [Call.run]
      cases hadd : AddTimer clock T1 secs s with
      | ok s1 =>
          obtain ⟨_, h2⟩ := AddTimer_heap_other clock T1 secs s s1 T hne hadd
          exact ⟨fun k hk => hns k ((h2 k).1 hk), by simp⟩
      | error e => exact ⟨hns, by simp⟩
  | DelTimer T1 =>
      exact ⟨fun k hk => hns k (filedUnder_of_unfileTimer _ T1 _ k T hk), by simp [Call.run]⟩
  | TickTimers TIME =>
      obtain ⟨_, _, t3, _, t5⟩ := TickTimers_spec TIME s h
      have hnot : T ∉ (TickTimers TIME s).2 := by
        intro hin
        obtain ⟨k, hk, _⟩ := (t3 T).1 hin
        exact hns k hk
      refine ⟨?_, hnot⟩
      intro k hk
      rcases (t5 k T).1 hk with ⟨h1, _⟩ | ⟨h1, _⟩
      · exact hns k h1
      · exact hnot h1

theorem absent_runCalls (calls : List Call) (s : State) (T : Nat) (h : WF s)
    (hns : scheduled T s.manager.Timers = false) (hc : ∀ c ∈ calls, c.avoids T = true) :
    scheduled T (runCalls calls s).1.manager.Timers = false ∧ T ∉ (runCalls calls s).2 := by
  induction calls generalizing s with
  | nil => exact ⟨hns, by simp [runCalls]⟩
  | cons c rest ih =>
      obtain ⟨p1, p2⟩ := absent_run c s T h hns (hc c (List.mem_cons_self _ _))
      obtain ⟨q1, q2⟩ := ih (c.run s).1 (WF_run c s h) p1
        (fun c1 hc1 => hc c1 (List.mem_cons_of_mem _ hc1))
      refine ⟨q1, ?_⟩
      simp only [runCalls, List.mem_append]
      rintro (h1 | h1)
      · exact p2 h1
      · exact q2 h1

/-! ## Theorems: the timer manager -/

/-- C4: after any sequence of `AddTimer`, `DelTimer` and `TickTimers` calls
from an empty manager, a timer present in the manager is in exactly one
timergroup of `Timers`, and every group holding it is keyed by its current
`GetTimer()`. -/
theorem C4_one_group_keyed_by_trigger (heap : Nat → TimerObject) (calls : List Call)
    (T : Nat) (hpresent : scheduled T (reach heap calls).manager.Timers = true) :
    (groupsOf T (reach heap calls).manager.Timers).length = 1 ∧
    ∀ e ∈ (reach heap calls).manager.Timers, T ∈ e.2 →
      e.1 = ((reach heap calls).heap T).base.GetTimer := by
  have hwf := WF_reach heap calls
  have hkey : ∀ e ∈ (reach heap calls).manager.Timers, T ∈ e.2 →
      e.1 = ((reach heap calls).heap T).base.GetTimer :=
    fun e he hT => ((hwf.2 e he).2 T hT).symm
  exact ⟨groupsOf_length T _ _ hwf.1 hkey hpresent, hkey⟩

/-- C4 at the scenario of the specification: after adding A and B and
ticking at `105`, B is present, in one group, keyed by its trigger. -/
theorem C4_witness :
    scheduled 1 (reach scenarioHeap
        [Call.AddTimer 100 0 0, Call.AddTimer 100 1 0, Call.TickTimers 105]).manager.Timers
      = true ∧
    (groupsOf 1 (reach scenarioHeap
        [Call.AddTimer 100 0 0, Call.AddTimer 100 1 0, Call.TickTimers 105]).manager.Timers
      ).length = 1 ∧
    ∀ e ∈ (reach scenarioHeap
        [Call.AddTimer 100 0 0, Call.AddTimer 100 1 0, Call.TickTimers 105]).manager.Timers,
      1 ∈ e.2 →
      e.1 = ((reach scenarioHeap
        [Call.AddTimer 100 0 0, Call.AddTimer 100 1 0, Call.TickTimers 105]).heap 1
        ).base.GetTimer :=
  ⟨by decide, C4_one_group_keyed_by_trigger scenarioHeap _ 1 (by decide)⟩

/-- C5: a non-repeating timer, constructed with delay `d` at time `t0` and
added to a manager it is not in, is accepted; no tick before `t0 + d`
fires it, whatever other calls on other timers come in between; the first
`TickTimers(now)` with `now ≥ t0 + d` invokes its action exactly once and
leaves it absent from the manager; and no later call that is not an add of
this timer fires it again, so it fires exactly once. -/
theorem C5_one_shot_fires_once (heap : Nat → TimerObject) (calls : List Call) (T : Nat)
    (d t0 clock : Int) (pre post : List Call) (now : Int)
    (habsent : scheduled T (reach heap calls).manager.Timers = false)
    (hobj : ((reach heap calls).heap T).base = InspTimer.init d t0 false)
    (hpre : ∀ c ∈ pre, c.avoids T = true ∧ c.before (t0 + d) = true)
    (hnow : t0 + d ≤ now)
    (hpost : ∀ c ∈ post, c.avoids T = true) :
    ∃ s1, AddTimer clock T 0 (reach heap calls) = Except.ok s1 ∧
      scheduled T s1.manager.Timers = true ∧
      List.count T (runCalls pre s1).2 = 0 ∧
      List.count T (TickTimers now (runCalls pre s1).1).2 = 1 ∧
      scheduled T (TickTimers now (runCalls pre s1).1).1.manager.Timers = false ∧
      List.count T (runCalls post (TickTimers now (runCalls pre s1).1).1).2 = 0 ∧
      scheduled T (runCalls post (TickTimers now (runCalls pre s1).1).1).1.manager.Timers
        = false := by
  have hwf := WF_reach heap calls
  have hadd : AddTimer clock T 0 (reach heap calls)
      = Except.ok
          { heap := store (reach heap calls).heap T ((reach heap calls).heap T)
            manager := { Timers := fileTimer ((reach heap calls).heap T).base.GetTimer T
                          (reach heap calls).manager.Timers } } := by
    simp [AddTimer, habsent]
  refine ⟨_, hadd, ?_⟩
  have hwf1 := WF_AddTimer clock T 0 _ _ hwf hadd
  have htrig : ((reach heap calls).heap T).base.GetTimer = t0 + d := by
    rw [hobj]; rfl
  rw [htrig] at hadd hwf1 ⊢
  have hf1 : filedUnder (fileTimer (t0 + d) T (reach heap calls).manager.Timers) (t0 + d) T :=
    (filedUnder_fileTimer _ _ _ _ _).2 (Or.inr ⟨rfl, rfl⟩)
  obtain ⟨p1, p2, p3⟩ := pending_runCalls pre _ T (t0 + d) hwf1 hf1 hpre
  have hwf2 := WF_runCalls pre _ hwf1
  obtain ⟨t1, t2, t3, t4, t5⟩ := TickTimers_spec now _ hwf2
  have hfired : T ∈ (TickTimers now (runCalls pre _).1).2 := (t3 T).2 ⟨t0 + d, p1, hnow⟩
  have hrep : (fire now ((runCalls pre
      { heap := store (reach heap calls).heap T ((reach heap calls).heap T)
        manager := { Timers := fileTimer (t0 + d) T (reach heap calls).manager.Timers } }
      ).1.heap T)).base.GetRepeat = false := by
    rw [fire_GetRepeat, p2]
    simp [store, hobj, InspTimer.init, InspTimer.GetRepeat]
  have hgone : scheduled T (TickTimers now (runCalls pre
      { heap := store (reach heap calls).heap T ((reach heap calls).heap T)
        manager := { Timers := fileTimer (t0 + d) T (reach heap calls).manager.Timers } }
      ).1).1.manager.Timers = false := by
    rw [scheduled_false_iff]
    intro k hk
    rcases (t5 k T).1 hk with ⟨h1, h2⟩ | ⟨_, h2, _⟩
    · have e1 := WF_trigger _ hwf2 k T h1
      have e2 := WF_trigger _ hwf2 (t0 + d) T p1
      omega
    · rw [hrep] at h2
      exact absurd h2 (by simp)
  obtain ⟨a1, a2⟩ := absent_runCalls post _ T t1 hgone hpost
  refine ⟨(scheduled_iff T _).2 ⟨t0 + d, hf1⟩, List.count_eq_zero.2 p3,
    List.count_eq_one_of_mem t2 hfired, hgone, List.count_eq_zero.2 a2, a1⟩

/-- C5 at the scenario of the specification: A (address `0`, delay `5`,
constructed at `100`) is added, B is added and a tick at `104` passes; the
tick at `105` fires A once and removes it; the ticks at `109` and `110` do
not fire it. -/
theorem C5_witness :
    ∃ s1, AddTimer 100 0 0 (reach scenarioHeap []) = Except.ok s1 ∧
      scheduled 0 s1.manager.Timers = true ∧
      List.count 0 (runCalls [Call.AddTimer 100 1 0, Call.TickTimers 104] s1).2 = 0 ∧
      List.count 0
        (TickTimers 105 (runCalls [Call.AddTimer 100 1 0, Call.TickTimers 104] s1).1).2 = 1 ∧
      scheduled 0
        (TickTimers 105 (runCalls [Call.AddTimer 100 1 0, Call.TickTimers 104] s1).1
          ).1.manager.Timers = false ∧
      List.count 0 (runCalls [Call.TickTimers 109, Call.TickTimers 110]
        (TickTimers 105 (runCalls [Call.AddTimer 100 1 0, Call.TickTimers 104] s1).1).1).2
        = 0 ∧
      scheduled 0 (runCalls [Call.TickTimers 109, Call.TickTimers 110]
        (TickTimers 105 (runCalls [Call.AddTimer 100 1 0, Call.TickTimers 104] s1).1).1
          ).1.manager.Timers = false :=
  C5_one_shot_fires_once scenarioHeap [] 0 5 100 100
    [Call.AddTimer 100 1 0, Call.TickTimers 104] [Call.TickTimers 109, Call.TickTimers 110]
    105 (by decide) (by rfl) (by decide) (by decide) (by decide)

/-- C6: a timer with the repeat flag set that is filed under trigger `K`
and still repeating after its action (the action asked to continue) is
fired once by `TickTimers(now)` for every `now ≥ K` and is re-filed under
`K + i`, where `i` is its interval: its trigger becomes `K + i`, it is in
the bucket keyed `K + i` and in no other, so when the tick is late
(`K < now`) it is not under `now + i`; its interval is unchanged. -/
theorem C6_refiled_at_trigger_plus_interval (heap : Nat → TimerObject) (calls : List Call)
    (T : Nat) (K now : Int)
    (hfiled : filedUnder (reach heap calls).manager.Timers K T)
    (hrepeat : ((reach heap calls).heap T).base.GetRepeat = true)
    (hcontinue : ((reach heap calls).heap T).action now = true)
    (hdue : K ≤ now) :
    List.count T (TickTimers now (reach heap calls)).2 = 1 ∧
    ((TickTimers now (reach heap calls)).1.heap T).base.GetTimer
      = K + ((reach heap calls).heap T).base.GetSecs ∧
    ((TickTimers now (reach heap calls)).1.heap T).base.GetSecs
      = ((reach heap calls).heap T).base.GetSecs ∧
    ((TickTimers now (reach heap calls)).1.heap T).base.GetRepeat = true ∧
    filedUnder (TickTimers now (reach heap calls)).1.manager.Timers
      (K + ((reach heap calls).heap T).base.GetSecs) T ∧
    (∀ k, filedUnder (TickTimers now (reach heap calls)).1.manager.Timers k T →
      k = K + ((reach heap calls).heap T).base.GetSecs) ∧
    (K < now → ¬ filedUnder (TickTimers now (reach heap calls)).1.manager.Timers
      (now + ((reach heap calls).heap T).base.GetSecs) T) := by
  have hwf := WF_reach heap calls
  obtain ⟨_, t2, t3, t4, t5⟩ := TickTimers_spec now _ hwf
  have hfired : T ∈ (TickTimers now (reach heap calls)).2 := (t3 T).2 ⟨K, hfiled, hdue⟩
  have htrig := WF_trigger _ hwf K T hfiled
  have hfire : fire now ((reach heap calls).heap T) = (reach heap calls).heap T := by
    simp [fire, hcontinue]
  have hafter : afterTick now ((reach heap calls).heap T)
      = { (reach heap calls).heap T with
          base := { ((reach heap calls).heap T).base with
                    trigger := K + ((reach heap calls).heap T).base.GetSecs } } := by
    unfold afterTick
    rw [hfire, if_pos hrepeat, htrig]
  have hheap := t4 T
  rw [if_pos hfired, hafter] at hheap
  have hkeys : ∀ k, filedUnder (TickTimers now (reach heap calls)).1.manager.Timers k T →
      k = K + ((reach heap calls).heap T).base.GetSecs := by
    intro k hk
    rcases (t5 k T).1 hk with ⟨h1, h2⟩ | ⟨_, _, h3⟩
    · have e1 := WF_trigger _ hwf k T h1
      omega
    · rw [hafter] at h3
      exact h3
  refine ⟨List.count_eq_one_of_mem t2 hfired, ?_, ?_, ?_, ?_, hkeys, ?_⟩
  · rw [hheap]; rfl
  · rw [hheap]; rfl
  · rw [hheap]; exact hrepeat
  · refine (t5 _ T).2 (Or.inr ⟨hfired, by rw [hfire]; exact hrepeat, ?_⟩)
    rw [hafter]; rfl
  · intro hlt hbad
    have := hkeys _ hbad
    omega

/-- C6 at the scenario of the specification with a late tick: B, filed
under `105` with interval `5`, is ticked at `107` and is re-filed under
`110`, not under `112`. -/
theorem C6_witness :
    List.count 1 (TickTimers 107 (reach scenarioHeap
      [Call.AddTimer 100 0 0, Call.AddTimer 100 1 0])).2 = 1 ∧
    ((TickTimers 107 (reach scenarioHeap
      [Call.AddTimer 100 0 0, Call.AddTimer 100 1 0])).1.heap 1).base.GetTimer = 110 ∧
    filedUnder (TickTimers 107 (reach scenarioHeap
      [Call.AddTimer 100 0 0, Call.AddTimer 100 1 0])).1.manager.Timers 110 1 ∧
    ¬ filedUnder (TickTimers 107 (reach scenarioHeap
      [Call.AddTimer 100 0 0, Call.AddTimer 100 1 0])).1.manager.Timers 112 1 := by
  have h := C6_refiled_at_trigger_plus_interval scenarioHeap
    [Call.AddTimer 100 0 0, Call.AddTimer 100 1 0] 1 105 107
    ⟨[0, 1], by decide, by decide⟩ (by decide) (by decide) (by decide)
  exact ⟨h.1, h.2.1, h.2.2.2.2.1, h.2.2.2.2.2.2 (by decide)⟩

end InspIRCd
